import Mathlib

/-!
Verification of the NormiesArchive event-indexing engine (`src/lib/indexer.ts`).

The TypeScript module is shallowly embedded below:
 * JavaScript `Map` objects (insertion-ordered) become association lists (`JMap`);
 * `Array.prototype.sort` (stable) becomes `List.mergeSort`;
 * network oracles (`getLogs`, the detail API, the blob store) become explicit
   function parameters, and the block-range queries and enrichment requests a
   run performs are collected in the result so that absence of I/O is provable;
 * JS numbers holding block heights, counts and timestamps become `Nat`.
-/

namespace NormiesArchive

/-- Model of `RawEditEvent` from `blobStore`, as used in `indexer.ts`. -/
structure RawEditEvent where
  blockNumber   : Nat
  txHash        : String
  changeCount   : Nat
  newPixelCount : Nat
  transformer   : String
deriving DecidableEq, Repr

/-- Model of `RawBurnEvent` from `blobStore`, as used in `indexer.ts`. -/
structure RawBurnEvent where
  blockNumber  : Nat
  txHash       : String
  tokenId      : Nat
  totalActions : Nat
  owner        : String
deriving DecidableEq, Repr

/-- A `PixelsTransformed` log as returned by `getLogs` (the `RawLog` shape with
the args an edit merge reads). -/
structure EditLog where
  blockNumber     : Nat
  transactionHash : String
  tokenId         : Nat
  changeCount     : Nat
  newPixelCount   : Nat
  transformer     : String
deriving DecidableEq, Repr

/-- A `BurnRevealed` log as returned by `getLogs` (the `RawLog` shape with
the args a burn merge reads). -/
structure BurnLog where
  blockNumber     : Nat
  transactionHash : String
  receiverTokenId : Nat
  totalActions    : Nat
  owner           : String
deriving DecidableEq, Repr

/-- Model of `UpgradedNormie` from `blobStore`. -/
structure UpgradedNormie where
  id        : Nat
  level     : Nat
  ap        : Nat
  added     : Nat
  removed   : Nat
  type      : String
  editCount : Nat
deriving DecidableEq, Repr

-- ── JavaScript `Map` model ────────────────────────────────────────────────────

/-- Insertion-ordered map, mirroring a JavaScript `Map<number, α>`. -/
abbrev JMap (α : Type) := List (Nat × α)

namespace JMap

/-- Model of `map.get(k)` — the first (unique) entry with key `k`. -/
def get {α : Type} (m : JMap α) (k : Nat) : Option α :=
  (m.find? (fun p => p.1 = k)).map Prod.snd

/-- Model of `map.has(k)`. -/
def hasKey {α : Type} (m : JMap α) (k : Nat) : Bool :=
  m.any (fun p => p.1 = k)

/-- Model of `map.set(k, v)` — updates the entry in place if `k` is present (keeping
its position), otherwise appends a new entry at the end.  Keys of a JS `Map`
are unique, so updating the first match is updating the only match. -/
def set {α : Type} (m : JMap α) (k : Nat) (v : α) : JMap α :=
  match m with
  | [] => [(k, v)]
  | p :: t => if p.1 = k then (k, v) :: t else p :: set t k v

theorem get_cons {α : Type} (p : Nat × α) (t : JMap α) (k : Nat) :
    JMap.get (p :: t) k = if p.1 = k then some p.2 else JMap.get t k := by
  by_cases hp : p.1 = k
  · simp [get, List.find?_cons_of_pos, hp]
  · simp [get, List.find?_cons_of_neg, hp]

theorem get_set_same {α : Type} (m : JMap α) (k : Nat) (v : α) :
    (m.set k v).get k = some v := by
  induction m with
  | nil => simp [set, get_cons, get]
  | cons p t ih =>
    by_cases hp : p.1 = k
    · simp [set, hp, get_cons]
    · simp [set, hp, get_cons, ih]

theorem get_set_ne {α : Type} (m : JMap α) (k k₂ : Nat) (v : α) (hne : k₂ ≠ k) :
    (m.set k v).get k₂ = m.get k₂ := by
  have hkk : ¬ k = k₂ := fun h => hne h.symm
  induction m with
  | nil => simp [set, get_cons, get, hkk]
  | cons p t ih =>
    by_cases hp : p.1 = k
    · have hp2 : ¬ p.1 = k₂ := by rw [hp]; exact hkk
      simp [set, hp, get_cons, hkk, hp2]
    · simp [set, hp, get_cons, ih]

end JMap

-- ── Stable sorts used by the indexer ─────────────────────────────────────────

/-- Comparator `(a, b) => a.blockNumber - b.blockNumber` on edit events. -/
def editLe (a b : RawEditEvent) : Bool := a.blockNumber ≤ b.blockNumber

/-- Model of `events.sort((a, b) => a.blockNumber - b.blockNumber)` — a stable
ascending sort by block number. -/
def sortEdits (l : List RawEditEvent) : List RawEditEvent :=
  l.mergeSort editLe

/-- Comparator `(a, b) => b.level - a.level || b.ap - a.ap` on normie aggregates. -/
def normieLe (a b : UpgradedNormie) : Bool :=
  if a.level = b.level then b.ap ≤ a.ap else b.level ≤ a.level

/-- Model of `normies.sort((a, b) => b.level - a.level || b.ap - a.ap)`. -/
def sortNormies (l : List UpgradedNormie) : List UpgradedNormie :=
  l.mergeSort normieLe

-- ── Merge engine (`mergeEditLogs` / `mergeBurnLogs`) ─────────────────────────

/-- The `RawEditEvent` record pushed by `mergeEditLogs` for one log. -/
def toRawEdit (l : EditLog) : RawEditEvent :=
  { blockNumber   := l.blockNumber
    txHash        := l.transactionHash
    changeCount   := l.changeCount
    newPixelCount := l.newPixelCount
    transformer   := l.transformer }

/-- The `RawBurnEvent` record pushed by `mergeBurnLogs` for one log. -/
def toRawBurn (l : BurnLog) : RawBurnEvent :=
  { blockNumber  := l.blockNumber
    txHash       := l.transactionHash
    tokenId      := l.receiverTokenId
    totalActions := l.totalActions
    owner        := l.owner }

/-- One iteration of the push loop of `mergeEditLogs`:
`if (!m.has(id)) m.set(id, []); m.get(id)!.push(ev)`. -/
def pushEdit (m : JMap (List RawEditEvent)) (l : EditLog) : JMap (List RawEditEvent) :=
  m.set l.tokenId (((m.get l.tokenId).getD []) ++ [toRawEdit l])

/-- One iteration of the push loop of `mergeBurnLogs`. -/
def pushBurn (m : JMap (List RawBurnEvent)) (l : BurnLog) : JMap (List RawBurnEvent) :=
  m.set l.receiverTokenId (((m.get l.receiverTokenId).getD []) ++ [toRawBurn l])

/-- The re-sort pass of `mergeEditLogs`:
`for (const id of touched) m.get(id)!.sort(...)`. -/
def sortTouched (m : JMap (List RawEditEvent)) (ids : List Nat) :
    JMap (List RawEditEvent) :=
  ids.foldl (fun acc id => acc.set id (sortEdits ((acc.get id).getD []))) m

/-- Model of `mergeEditLogs(editsByToken, logs)`: push every log onto its token's list,
then re-sort each touched token's list by block number.  Returns the updated
map together with the touched-token set (modelled as the list of token ids of
the pushed logs; membership in it is membership in the JS `Set`). -/
def mergeEditLogs (m : JMap (List RawEditEvent)) (logs : List EditLog) :
    JMap (List RawEditEvent) × List Nat :=
  let pushed := logs.foldl pushEdit m
  let touched := logs.map (fun l => l.tokenId)
  (sortTouched pushed touched, touched)

/-- Model of `mergeBurnLogs(burnsByToken, logs)`: push every log onto its token's list.
No re-sort pass is performed for burns. -/
def mergeBurnLogs (m : JMap (List RawBurnEvent)) (logs : List BurnLog) :
    JMap (List RawBurnEvent) × List Nat :=
  (logs.foldl pushBurn m, logs.map (fun l => l.receiverTokenId))

-- ── Pointwise characterisation of the merge engine ───────────────────────────

theorem editLe_trans (a b c : RawEditEvent) : editLe a b → editLe b c → editLe a c := by
  simp only [editLe, decide_eq_true_eq]
  omega

theorem editLe_total (a b : RawEditEvent) : editLe a b || editLe b a := by
  simp only [editLe]
  rcases Nat.le_total a.blockNumber b.blockNumber with h | h <;> simp [h]

theorem sortEdits_sorted (l : List RawEditEvent) :
    (sortEdits l).Pairwise (fun a b => editLe a b = true) :=
  List.sorted_mergeSort editLe_trans editLe_total l

theorem sortEdits_idem (l : List RawEditEvent) : sortEdits (sortEdits l) = sortEdits l :=
  List.mergeSort_of_sorted (sortEdits_sorted l)

theorem sortEdits_of_sorted {l : List RawEditEvent}
    (h : l.Pairwise (fun a b => editLe a b = true)) : sortEdits l = l :=
  List.mergeSort_of_sorted h

/-- Effect of the push loop of `mergeEditLogs` on one key. -/
theorem foldl_pushEdit_get (logs : List EditLog) (m : JMap (List RawEditEvent)) (k : Nat) :
    (logs.foldl pushEdit m).get k =
      if logs.any (fun l => l.tokenId = k) then
        some ((m.get k).getD [] ++ (logs.filter (fun l => l.tokenId = k)).map toRawEdit)
      else m.get k := by
  induction logs generalizing m with
  | nil => simp
  | cons l t ih =>
    simp only [List.foldl_cons, List.any_cons, List.filter_cons]
    by_cases hl : l.tokenId = k
    · have hget : (pushEdit m l).get k = some ((m.get k).getD [] ++ [toRawEdit l]) := by
        rw [pushEdit, hl]
        exact JMap.get_set_same m k _
      rw [ih (pushEdit m l), hget]
      by_cases ht : t.any (fun l => l.tokenId = k)
      · simp [hl, ht, List.append_assoc]
      · simp [hl, ht]
        simpa using ht
    · have hget : (pushEdit m l).get k = m.get k :=
        JMap.get_set_ne m l.tokenId k _ (fun h => hl h.symm)
      rw [ih (pushEdit m l), hget]
      simp [hl]

/-- Effect of the re-sort pass on one key. -/
theorem sortTouched_get (ids : List Nat) (m : JMap (List RawEditEvent)) (k : Nat) :
    (sortTouched m ids).get k =
      if k ∈ ids then some (sortEdits ((m.get k).getD [])) else m.get k := by
  induction ids generalizing m with
  | nil => simp [sortTouched]
  | cons i t ih =>
    simp only [sortTouched, List.foldl_cons, List.mem_cons]
    by_cases hk : k = i
    · subst hk
      have hget : ((m.set k (sortEdits ((m.get k).getD []))).get k) =
          some (sortEdits ((m.get k).getD [])) := JMap.get_set_same m k _
      rw [show (t.foldl (fun acc id => acc.set id (sortEdits ((acc.get id).getD []))) _) =
            sortTouched (m.set k (sortEdits ((m.get k).getD []))) t from rfl,
          ih, hget]
      by_cases ht : k ∈ t
      · simp [ht, sortEdits_idem]
      · simp [ht]
    · have hget : ((m.set i (sortEdits ((m.get i).getD []))).get k) = m.get k :=
        JMap.get_set_ne m i k _ hk
      rw [show (t.foldl (fun acc id => acc.set id (sortEdits ((acc.get id).getD []))) _) =
            sortTouched (m.set i (sortEdits ((m.get i).getD []))) t from rfl,
          ih, hget]
      simp [hk]

/-- Behaviour of `mergeEditLogs` on one key: a touched key ends up with its old list plus
the new events for it, re-sorted; an untouched key's entry is unchanged. -/
theorem mergeEditLogs_get (m : JMap (List RawEditEvent)) (logs : List EditLog) (k : Nat) :
    (mergeEditLogs m logs).1.get k =
      if logs.any (fun l => l.tokenId = k) then
        some (sortEdits
          ((m.get k).getD [] ++ (logs.filter (fun l => l.tokenId = k)).map toRawEdit))
      else m.get k := by
  unfold mergeEditLogs
  simp only
  rw [sortTouched_get, foldl_pushEdit_get]
  by_cases h : logs.any (fun l => l.tokenId = k)
  · have hmem : k ∈ logs.map (fun l => l.tokenId) := by
      rcases List.any_eq_true.mp h with ⟨l, hl, hlk⟩
      simp only [decide_eq_true_eq] at hlk
      exact List.mem_map.mpr ⟨l, hl, hlk⟩
    simp [h, hmem]
  · have hmem : k ∉ logs.map (fun l => l.tokenId) := by
      intro hc
      rcases List.mem_map.mp hc with ⟨l, hl, hlk⟩
      exact absurd (List.any_eq_true.mpr ⟨l, hl, by simp [hlk]⟩) h
    simp [h, hmem]

/-- Behaviour of `mergeBurnLogs` on one key: appends the new events, no sort. -/
theorem mergeBurnLogs_get (m : JMap (List RawBurnEvent)) (logs : List BurnLog) (k : Nat) :
    (mergeBurnLogs m logs).1.get k =
      if logs.any (fun l => l.receiverTokenId = k) then
        some ((m.get k).getD []
          ++ (logs.filter (fun l => l.receiverTokenId = k)).map toRawBurn)
      else m.get k := by
  unfold mergeBurnLogs
  simp only
  induction logs generalizing m with
  | nil => simp
  | cons l t ih =>
    simp only [List.foldl_cons, List.any_cons, List.filter_cons]
    by_cases hl : l.receiverTokenId = k
    · have hget : (pushBurn m l).get k = some ((m.get k).getD [] ++ [toRawBurn l]) := by
        rw [pushBurn, hl]
        exact JMap.get_set_same m k _
      rw [ih (pushBurn m l), hget]
      by_cases ht : t.any (fun l => l.receiverTokenId = k)
      · simp [hl, ht, List.append_assoc]
      · simp [hl, ht]
        simpa using ht
    · have hget : (pushBurn m l).get k = m.get k :=
        JMap.get_set_ne m l.receiverTokenId k _ (fun h => hl h.symm)
      rw [ih (pushBurn m l), hget]
      simp [hl]

-- ── Range scanner (`scanRange`) ──────────────────────────────────────────────

/-- Constant `CHUNK_SIZE = 50_000n`. -/
def CHUNK_SIZE : Nat := 50000

/-- Constant `CANVAS_DEPLOY_BLOCK = 19_614_531n`. -/
def CANVAS_DEPLOY_BLOCK : Nat := 19614531

/-- The chunk list built by `scanRange`:
`for (let f = from; f <= to; f += CHUNK_SIZE) chunks.push([f, min(f + CHUNK_SIZE - 1, to)])`. -/
def chunkFrom (f b : Nat) : List (Nat × Nat) :=
  if f ≤ b then
    (f, min (f + (CHUNK_SIZE - 1)) b) :: chunkFrom (f + CHUNK_SIZE) b
  else []
termination_by b + 1 - f
decreasing_by simp only [CHUNK_SIZE]; omega

/-- Model of `scanRange(from, to, event)`, parameterised by the chunk-fetch oracle.
The `PARALLEL_CHUNKS`-wave batching of the source concatenates wave results in
chunk order, so the returned list is the in-order concatenation of all chunk
results.  If `from > to` it returns `[]` before building any chunk. -/
def scanRange {L : Type} (fetch : Nat → Nat → List L) (a b : Nat) : List L :=
  if a > b then [] else ((chunkFrom a b).map (fun c => fetch c.1 c.2)).flatten

/-- The block ranges `scanRange(from, to)` actually queries. -/
def scanRangeQueries (a b : Nat) : List (Nat × Nat) :=
  if a > b then [] else chunkFrom a b

-- ── Chunk fetcher (`fetchChunk`) retry model ─────────────────────────────────

/-- Outcome of one `fetchChunk` run: the returned logs, the back-off delays
(ms) slept between attempts, how many `getLogs` calls were made, and whether
the failure warning was logged.  The function is total: a remote error is
never re-raised to the caller. -/
structure ChunkFetchResult (L : Type) where
  logs     : List L
  delays   : List Nat
  attempts : Nat
  warned   : Bool
deriving Repr, DecidableEq

/-- Model of `fetchChunk(from, to, event, attempt)`: `rpc n` is the outcome of the
`n`-th `getLogs` call (`none` = the call threw).  On failure with
`attempt < 2` it sleeps `500 * (attempt + 1)` ms and recurses; otherwise it
warns and returns `[]`. -/
def fetchChunkFrom {L : Type} (rpc : Nat → Option (List L)) (attempt : Nat) :
    ChunkFetchResult L :=
  match rpc attempt with
  | some logs => ⟨logs, [], 1, false⟩
  | none =>
    if attempt < 2 then
      let r := fetchChunkFrom rpc (attempt + 1)
      ⟨r.logs, 500 * (attempt + 1) :: r.delays, r.attempts + 1, r.warned⟩
    else ⟨[], [], 1, true⟩
termination_by 2 - attempt

/-- Entry point of `fetchChunk`, starting from `attempt = 0` (the default). -/
def fetchChunk {L : Type} (rpc : Nat → Option (List L)) : ChunkFetchResult L :=
  fetchChunkFrom rpc 0

-- ── Detail-API fetch with rate-limit retry (`fetchWithRetry`) ────────────────

/-- The slice of an HTTP response that `fetchWithRetry` inspects. -/
structure HttpResponse where
  status           : Nat
  retryAfterHeader : Option String
deriving Repr, DecidableEq

/-- Model of `parseInt(s, 10)` restricted to the shapes that occur here: the leading
run of decimal digits, or `NaN` (`none`) when the string starts with none. -/
def parseIntJS (s : String) : Option Nat :=
  let ds := s.toList.takeWhile (fun c => c.isDigit)
  if ds = [] then none
  else some (ds.foldl (fun n c => n * 10 + (c.toNat - 48)) 0)

/-- JavaScript `retryAfter || 2`: `NaN` and `0` are falsy. -/
def jsOrTwo : Option Nat → Nat
  | none => 2
  | some 0 => 2
  | some n => n

/-- Model of `fetchWithRetry(url, attempt)`: `responses n` is the response of the
`n`-th `fetch`.  On status 429 with `attempt < 4` it sleeps
`(parseInt(header ?? "2") || 2) * 1000 * (attempt + 1)` ms and recurses.
Returns the final response and the list of waits (ms). -/
def fetchWithRetryFrom (responses : Nat → HttpResponse) (attempt : Nat) :
    HttpResponse × List Nat :=
  let res := responses attempt
  if res.status = 429 then
    if attempt < 4 then
      let retryAfter := parseIntJS ((res.retryAfterHeader).getD "2")
      let w := jsOrTwo retryAfter * 1000 * (attempt + 1)
      let r := fetchWithRetryFrom responses (attempt + 1)
      (r.1, w :: r.2)
    else (res, [])
  else (res, [])
termination_by 4 - attempt

/-- Entry point of `fetchWithRetry`, starting from `attempt = 0` (the default). -/
def fetchWithRetry (responses : Nat → HttpResponse) : HttpResponse × List Nat :=
  fetchWithRetryFrom responses 0

-- ── Structure of the chunk list ──────────────────────────────────────────────

theorem chunkFrom_of_gt {f b : Nat} (h : b < f) : chunkFrom f b = [] := by
  rw [chunkFrom]
  simp [Nat.not_le.mpr h]

theorem chunkFrom_of_le {f b : Nat} (h : f ≤ b) :
    chunkFrom f b = (f, min (f + (CHUNK_SIZE - 1)) b) :: chunkFrom (f + CHUNK_SIZE) b := by
  rw [chunkFrom]
  simp [h]

theorem chunkFrom_props_fuel : ∀ fuel f b, b + 1 - f ≤ fuel → f ≤ b →
    chunkFrom f b ≠ [] ∧
    (chunkFrom f b).head?.map Prod.fst = some f ∧
    (chunkFrom f b).getLast?.map Prod.snd = some b ∧
    List.Chain' (fun p q : Nat × Nat => q.1 = p.2 + 1) (chunkFrom f b) ∧
    (∀ c ∈ chunkFrom f b, c.1 ≤ c.2 ∧ c.2 + 1 ≤ c.1 + CHUNK_SIZE ∧ c.2 ≤ b) := by
  intro fuel
  induction fuel with
  | zero => intro f b hle hfb; omega
  | succ n ih =>
    intro f b hle hfb
    rw [chunkFrom_of_le hfb]
    have hcs : CHUNK_SIZE = 50000 := rfl
    by_cases hend : f + CHUNK_SIZE ≤ b
    · have hrec := ih (f + CHUNK_SIZE) b (by omega) hend
      rw [chunkFrom_of_le hend] at hrec ⊢
      have hmin : min (f + (CHUNK_SIZE - 1)) b = f + (CHUNK_SIZE - 1) := by omega
      refine ⟨by simp, by simp, ?_, ?_, ?_⟩
      · rw [List.getLast?_cons_cons]
        exact hrec.2.2.1
      · refine List.Chain'.cons ?_ hrec.2.2.2.1
        simp only [hmin]
        omega
      · intro c hc
        rcases List.mem_cons.mp hc with hc | hc
        · subst hc
          refine ⟨by omega, by omega, by omega⟩
        · exact hrec.2.2.2.2 c hc
    · have hnil : chunkFrom (f + CHUNK_SIZE) b = [] := chunkFrom_of_gt (by omega)
      rw [hnil]
      have hmin : min (f + (CHUNK_SIZE - 1)) b = b := by omega
      refine ⟨by simp, by simp, by simp [hmin], by simp, ?_⟩
      intro c hc
      rcases List.mem_cons.mp hc with hc | hc
      · subst hc
        refine ⟨by simp [hmin]; omega, by simp [hmin]; omega, by simp [hmin]⟩
      · simp at hc

theorem chunkFrom_props_main {f b : Nat} (h : f ≤ b) :
    chunkFrom f b ≠ [] ∧
    (chunkFrom f b).head?.map Prod.fst = some f ∧
    (chunkFrom f b).getLast?.map Prod.snd = some b ∧
    List.Chain' (fun p q : Nat × Nat => q.1 = p.2 + 1) (chunkFrom f b) ∧
    (∀ c ∈ chunkFrom f b, c.1 ≤ c.2 ∧ c.2 + 1 ≤ c.1 + CHUNK_SIZE ∧ c.2 ≤ b) :=
  chunkFrom_props_fuel (b + 1 - f) f b (Nat.le_refl _) h

-- ── A chunked scan of a block-ordered stream is a plain range filter ─────────

/-- The events of the stream that lie in block range `[a, b]` — what a chunk
fetch for `[a, b]` returns when it returns exactly the events in its range. -/
def inRange {α : Type} (bn : α → Nat) (a b : Nat) (x : α) : Bool :=
  decide (a ≤ bn x) && decide (bn x ≤ b)

theorem filter_inRange_of_gt {α : Type} (bn : α → Nat) (l : List α) {a b : Nat}
    (h : b < a) : l.filter (inRange bn a b) = [] := by
  rw [List.filter_eq_nil_iff]
  intro x _
  simp only [inRange, Bool.and_eq_true, decide_eq_true_eq, not_and]
  omega

theorem filter_inRange_split {α : Type} (bn : α → Nat) {l : List α}
    (hs : l.Pairwise (fun x y => bn x ≤ bn y)) (a m b : Nat)
    (ham : a ≤ m + 1) (hmb : m ≤ b) :
    l.filter (inRange bn a b) =
      l.filter (inRange bn a m) ++ l.filter (inRange bn (m + 1) b) := by
  induction l with
  | nil => simp
  | cons x t ih =>
    rcases List.pairwise_cons.mp hs with ⟨hx, ht⟩
    simp only [List.filter_cons]
    by_cases h1 : inRange bn a m x
    · have h2 : inRange bn a b x := by
        simp only [inRange, Bool.and_eq_true, decide_eq_true_eq] at h1 ⊢
        omega
      have h4 : ¬ inRange bn (m + 1) b x := by
        simp only [inRange, Bool.and_eq_true, decide_eq_true_eq] at h1
        simp only [inRange, Bool.and_eq_true, decide_eq_true_eq, not_and]
        omega
      simp [h1, h2, h4, ih ht]
    · by_cases h2 : inRange bn (m + 1) b x
      · have h3 : inRange bn a b x := by
          simp only [inRange, Bool.and_eq_true, decide_eq_true_eq] at h2 ⊢
          omega
        have hnil : t.filter (inRange bn a m) = [] := by
          rw [List.filter_eq_nil_iff]
          intro y hy
          have hxy := hx y hy
          simp only [inRange, Bool.and_eq_true, decide_eq_true_eq] at h2
          simp only [inRange, Bool.and_eq_true, decide_eq_true_eq, not_and]
          omega
        rw [if_pos h3, if_neg h1, if_pos h2, ih ht, hnil]
        simp
      · have h3 : ¬ inRange bn a b x := by
          simp only [inRange, Bool.and_eq_true, decide_eq_true_eq, not_and] at h1 h2 ⊢
          omega
        simp [h1, h2, h3, ih ht]

theorem flatten_chunk_filter_fuel {α : Type} (bn : α → Nat) {l : List α}
    (hs : l.Pairwise (fun x y => bn x ≤ bn y)) :
    ∀ fuel f b, b + 1 - f ≤ fuel →
      ((chunkFrom f b).map (fun c => l.filter (inRange bn c.1 c.2))).flatten
        = l.filter (inRange bn f b) := by
  intro fuel
  induction fuel with
  | zero =>
    intro f b hle
    have hfb : b < f := by omega
    rw [chunkFrom_of_gt hfb, filter_inRange_of_gt bn l hfb]
    simp
  | succ n ih =>
    intro f b hle
    by_cases hfb : f ≤ b
    · rw [chunkFrom_of_le hfb]
      have hcs : CHUNK_SIZE = 50000 := rfl
      by_cases hend : f + CHUNK_SIZE ≤ b
      · have hmin : min (f + (CHUNK_SIZE - 1)) b = f + (CHUNK_SIZE - 1) := by omega
        rw [List.map_cons, List.flatten_cons, hmin,
            ih (f + CHUNK_SIZE) b (by omega)]
        have := filter_inRange_split bn hs f (f + (CHUNK_SIZE - 1)) b
          (by omega) (by omega)
        rw [show f + (CHUNK_SIZE - 1) + 1 = f + CHUNK_SIZE by omega] at this
        exact this.symm
      · have hmin : min (f + (CHUNK_SIZE - 1)) b = b := by omega
        have hnil : chunkFrom (f + CHUNK_SIZE) b = [] := chunkFrom_of_gt (by omega)
        rw [hnil, hmin]
        simp
    · have h : b < f := by omega
      rw [chunkFrom_of_gt h, filter_inRange_of_gt bn l h]
      simp

/-- When every chunk fetch returns exactly the stream's events in its range
and the stream is in block order, `scanRange(from, to)` returns exactly the
stream's events in `[from, to]`, in stream order. -/
theorem scanRange_filter {α : Type} (bn : α → Nat) {l : List α}
    (hs : l.Pairwise (fun x y => bn x ≤ bn y)) (a b : Nat) :
    scanRange (fun f t => l.filter (inRange bn f t)) a b
      = l.filter (inRange bn a b) := by
  unfold scanRange
  by_cases h : a > b
  · rw [if_pos h, filter_inRange_of_gt bn l h]
  · rw [if_neg h]
    exact flatten_chunk_filter_fuel bn hs (b + 1 - a) a b (Nat.le_refl _)

-- ── Blob documents (`blobStore` types, shapes as used in `indexer.ts`) ───────

/-- Model of `EventsBlob`: raw per-token event maps plus the last scanned block.
`timestamps` is the optional pre-fetched block-timestamp table
(`eventsBlob.timestamps ?? []` on the read path). -/
structure EventsBlob where
  latestBlock  : Nat
  savedAt      : Nat
  editsByToken : JMap (List RawEditEvent)
  burnsByToken : JMap (List RawBurnEvent)
  timestamps   : Option (List (Nat × Nat))
deriving DecidableEq, Repr

/-- Model of `NormiesBlob`: the derived aggregate list. -/
structure NormiesBlob where
  normies     : List UpgradedNormie
  savedAt     : Nat
  latestBlock : Nat
deriving DecidableEq, Repr

-- ── Enrichment (`fetchNormieDetails` and the batch loops) ────────────────────

/-- What the three detail-API endpoints yield for one token once decoded:
`none` models a non-ok or `customized: false` info response, or a thrown
request (the `catch` branch). -/
structure DetailFields where
  level   : Nat
  ap      : Nat
  added   : Nat
  removed : Nat
  type    : String
deriving DecidableEq, Repr

/-- Model of `fetchNormieDetails(id, editCount)` against the detail-API oracle `api`.
The returned aggregate always carries the requested `id` and the passed
`editCount`. -/
def fetchNormieDetails (api : Nat → Option DetailFields) (id editCount : Nat) :
    Option UpgradedNormie :=
  (api id).map (fun d =>
    { id := id, level := d.level, ap := d.ap, added := d.added,
      removed := d.removed, type := d.type, editCount := editCount })

/-- The enrichment batch loop: tokens are processed in batches of 8 via
`Promise.all`, whose results come back in request order, and failed lookups
(`null`) are skipped — so the pushed aggregates are the in-order successful
lookups. -/
def enrichAll (api : Nat → Option DetailFields) (ids : List Nat)
    (countOf : Nat → Nat) : List UpgradedNormie :=
  ids.filterMap (fun id => fetchNormieDetails api id (countOf id))

-- ── The chain and perfect chunk fetches (C1's assumption) ────────────────────

/-- The event source: the full `PixelsTransformed` and `BurnRevealed` streams
and the current head block. -/
structure Chain where
  editStream : List EditLog
  burnStream : List BurnLog
  head       : Nat

/-- A chunk fetch that returns exactly the edit events in its range. -/
def editFetch (ch : Chain) (f t : Nat) : List EditLog :=
  ch.editStream.filter (inRange (fun l => l.blockNumber) f t)

/-- A chunk fetch that returns exactly the burn events in its range. -/
def burnFetch (ch : Chain) (f t : Nat) : List BurnLog :=
  ch.burnStream.filter (inRange (fun l => l.blockNumber) f t)

-- ── `runFullScan` ────────────────────────────────────────────────────────────

/-- Model of `runFullScan()`: scan `[CANVAS_DEPLOY_BLOCK, head]` for both event kinds,
merge into empty maps, enrich every token that has an edit, and assemble the
two blobs. -/
def runFullScan (ch : Chain) (api : Nat → Option DetailFields) (now : Nat) :
    EventsBlob × NormiesBlob :=
  let editLogs := scanRange (editFetch ch) CANVAS_DEPLOY_BLOCK ch.head
  let burnLogs := scanRange (burnFetch ch) CANVAS_DEPLOY_BLOCK ch.head
  let editsByToken := (mergeEditLogs [] editLogs).1
  let burnsByToken := (mergeBurnLogs [] burnLogs).1
  let allIds := editsByToken.map Prod.fst
  let normies := sortNormies
    (enrichAll api allIds (fun id => ((editsByToken.get id).getD []).length))
  (⟨ch.head, now, editsByToken, burnsByToken, none⟩, ⟨normies, now, ch.head⟩)

-- ── `runIncrementalScan` ─────────────────────────────────────────────────────

/-- JS `new Set(list)` iterated back to a list: duplicates removed, first
occurrence kept. -/
def jsSetList (l : List Nat) : List Nat :=
  l.foldl (fun acc x => if x ∈ acc then acc else acc ++ [x]) []

/-- Result of one incremental scan, instrumented with the block ranges of the
`getLogs` chunk queries it issued and the token ids it re-enriched. -/
structure IncrResult where
  eventsBlob  : EventsBlob
  normiesBlob : NormiesBlob
  changed     : Bool
  queried     : List (Nat × Nat)
  enriched    : List Nat
deriving Repr

/-- The merge-and-refresh branch of `runIncrementalScan` (taken when the
range is non-empty and at least one new log was found). -/
def runIncrementalMain (ch : Chain) (api : Nat → Option DetailFields)
    (stored : Option NormiesBlob) (now : Nat) (existing : EventsBlob) : IncrResult :=
  let fromBlock := existing.latestBlock + 1
  let latest := ch.head
  let editLogs := scanRange (editFetch ch) fromBlock latest
  let burnLogs := scanRange (burnFetch ch) fromBlock latest
  let merged := mergeEditLogs existing.editsByToken editLogs
  let mergedBurns := mergeBurnLogs existing.burnsByToken burnLogs
  let toRefresh := jsSetList (merged.2 ++ mergedBurns.2)
  let existingNormies := (stored.map (fun nb => nb.normies)).getD []
  let kept := existingNormies.filter (fun n => ¬ n.id ∈ toRefresh)
  let fetched := enrichAll api toRefresh
    (fun id => ((merged.1.get id).getD []).length)
  { eventsBlob  := ⟨latest, now, merged.1, mergedBurns.1, none⟩
    normiesBlob := ⟨sortNormies (kept ++ fetched), now, latest⟩
    changed     := true
    queried     := scanRangeQueries fromBlock latest ++ scanRangeQueries fromBlock latest
    enriched    := toRefresh }

/-- Model of `runIncrementalScan(existing)`: resume from `existing.latestBlock + 1` up
to the chain head.  `stored` is what `loadNormiesBlob()` returns. -/
def runIncrementalScan (ch : Chain) (api : Nat → Option DetailFields)
    (stored : Option NormiesBlob) (now : Nat) (existing : EventsBlob) : IncrResult :=
  let fromBlock := existing.latestBlock + 1
  let latest := ch.head
  if fromBlock > latest then
    { eventsBlob  := { existing with savedAt := now }
      normiesBlob := stored.getD ⟨[], now, latest⟩
      changed     := false
      queried     := []
      enriched    := [] }
  else
    let editLogs := scanRange (editFetch ch) fromBlock latest
    let burnLogs := scanRange (burnFetch ch) fromBlock latest
    if editLogs.length = 0 ∧ burnLogs.length = 0 then
      { eventsBlob  := { existing with latestBlock := latest, savedAt := now }
        normiesBlob := stored.getD ⟨[], now, latest⟩
        changed     := false
        queried     := scanRangeQueries fromBlock latest ++ scanRangeQueries fromBlock latest
        enriched    := [] }
    else
      runIncrementalMain ch api stored now existing

-- ── Cache coordinator (`getCache`, single-flight) ────────────────────────────

/-- Constant `CACHE_TTL_MS = 10 * 60 * 1000`. -/
def CACHE_TTL_MS : Nat := 10 * 60 * 1000

/-- The in-memory cache (`MemCache`). -/
structure MemCache where
  editsByToken   : JMap (List RawEditEvent)
  burnsByToken   : JMap (List RawBurnEvent)
  normies        : List UpgradedNormie
  latestBlock    : Nat
  loadedAt       : Nat
  blobTimestamps : List (Nat × Nat)
deriving DecidableEq, Repr

/-- The module-level mutable state `_mem` / `_loadPromise`, plus bookkeeping:
`startedLoads` records every `loadMemCache()` ever launched (by a fresh
promise id), so that single-flight is expressible. -/
structure CoordState where
  mem          : Option MemCache
  loadPromise  : Option Nat
  nextId       : Nat
  startedLoads : List Nat
deriving DecidableEq, Repr

/-- What one `getCache()` call hands back synchronously: the current `_mem`,
or (when `_mem` is null) a promise to await. -/
inductive GetCacheReturn where
  | value (m : MemCache)
  | promise (id : Nat)
deriving DecidableEq, Repr

/-- The synchronous body of `getCache()` (the code up to returning; the
`.then/.finally` continuations of the started load run only when it settles,
outside the window modelled here).  JavaScript's event loop runs this body
atomically, so N concurrent calls are N sequential steps. -/
def getCacheStep (now : Nat) (s : CoordState) : GetCacheReturn × CoordState :=
  match s.mem with
  | some m =>
    if now - m.loadedAt < CACHE_TTL_MS then
      (.value m, s)
    else
      match s.loadPromise with
      | some _ => (.value m, s)
      | none =>
        (.value m,
         { s with loadPromise := some s.nextId, nextId := s.nextId + 1,
                  startedLoads := s.startedLoads ++ [s.nextId] })
  | none =>
    match s.loadPromise with
    | some p => (.promise p, s)
    | none =>
      (.promise s.nextId,
       { s with loadPromise := some s.nextId, nextId := s.nextId + 1,
                startedLoads := s.startedLoads ++ [s.nextId] })

/-- N concurrent `getCache()` calls at times `times`, run in event-loop
order with no intervening promise resolution. -/
def runGetCacheCalls (times : List Nat) (s : CoordState) :
    List GetCacheReturn × CoordState :=
  match times with
  | [] => ([], s)
  | t :: ts =>
    let r := getCacheStep t s
    let rest := runGetCacheCalls ts r.2
    (r.1 :: rest.1, rest.2)

-- ── `getThe100` ──────────────────────────────────────────────────────────────

/-- A pioneer record before rank assignment. -/
structure PioneerRec where
  tokenId     : Nat
  blockNumber : Nat
  txHash      : String
  changeCount : Nat
  type        : String
deriving DecidableEq, Repr

/-- An entry of `getThe100().entries`. -/
structure The100Entry where
  tokenId     : Nat
  blockNumber : Nat
  txHash      : String
  changeCount : Nat
  type        : String
  rank        : Nat
deriving DecidableEq, Repr

/-- Comparator `(a, b) => a.blockNumber - b.blockNumber` on pioneers. -/
def pioneerLe (a b : PioneerRec) : Bool := a.blockNumber ≤ b.blockNumber

/-- The pioneer-collection loop of `getThe100`. -/
def collectPioneers (cache : MemCache) : List PioneerRec :=
  cache.editsByToken.foldl (fun acc p =>
    match p.2 with
    | [] => acc
    | first :: _ =>
      acc ++ [{ tokenId := p.1, blockNumber := first.blockNumber,
                txHash := first.txHash, changeCount := first.changeCount,
                type := ((cache.normies.find? (fun n => n.id = p.1)).map
                          (fun n => n.type)).getD "Human" }]) []

/-- Model of `getThe100().entries`: collect each token's first edit, sort ascending by
block number, take the first 100, and attach 1-based ranks. -/
def getThe100Entries (cache : MemCache) : List The100Entry :=
  let sorted := (collectPioneers cache).mergeSort pioneerLe
  ((sorted.take 100).enum).map (fun p =>
    { tokenId := p.2.tokenId, blockNumber := p.2.blockNumber,
      txHash := p.2.txHash, changeCount := p.2.changeCount,
      type := p.2.type, rank := p.1 + 1 })

-- ── Retry-model unfolding lemmas ─────────────────────────────────────────────

theorem fetchChunkFrom_ok {L : Type} (rpc : Nat → Option (List L)) (a : Nat)
    {logs : List L} (h : rpc a = some logs) :
    fetchChunkFrom rpc a = ⟨logs, [], 1, false⟩ := by
  rw [fetchChunkFrom, h]

theorem fetchChunkFrom_err_retry {L : Type} (rpc : Nat → Option (List L)) (a : Nat)
    (h : rpc a = none) (ha : a < 2) :
    fetchChunkFrom rpc a =
      ⟨(fetchChunkFrom rpc (a + 1)).logs,
       500 * (a + 1) :: (fetchChunkFrom rpc (a + 1)).delays,
       (fetchChunkFrom rpc (a + 1)).attempts + 1,
       (fetchChunkFrom rpc (a + 1)).warned⟩ := by
  rw [fetchChunkFrom, h]
  simp [ha]

theorem fetchChunkFrom_err_stop {L : Type} (rpc : Nat → Option (List L)) (a : Nat)
    (h : rpc a = none) (ha : ¬ a < 2) :
    fetchChunkFrom rpc a = ⟨[], [], 1, true⟩ := by
  rw [fetchChunkFrom, h]
  simp [ha]

theorem fetchWithRetryFrom_retry (responses : Nat → HttpResponse) (a : Nat)
    (h : (responses a).status = 429) (ha : a < 4) :
    fetchWithRetryFrom responses a =
      ((fetchWithRetryFrom responses (a + 1)).1,
        jsOrTwo (parseIntJS (((responses a).retryAfterHeader).getD "2"))
            * 1000 * (a + 1)
          :: (fetchWithRetryFrom responses (a + 1)).2) := by
  rw [fetchWithRetryFrom]
  simp only [h, ha, if_pos, if_true]

theorem fetchWithRetryFrom_stop (responses : Nat → HttpResponse) (a : Nat)
    (h : ¬ ((responses a).status = 429 ∧ a < 4)) :
    fetchWithRetryFrom responses a = (responses a, []) := by
  rw [fetchWithRetryFrom]
  by_cases h1 : (responses a).status = 429
  · have h2 : ¬ a < 4 := fun hc => h ⟨h1, hc⟩
    simp [h1, h2]
  · simp [h1]

theorem fetchWithRetryFrom_len (responses : Nat → HttpResponse) :
    ∀ fuel a, 4 - a ≤ fuel → (fetchWithRetryFrom responses a).2.length ≤ 4 - a := by
  intro fuel
  induction fuel with
  | zero =>
    intro a h
    have ha : ¬ a < 4 := by omega
    by_cases h1 : (responses a).status = 429
    · rw [fetchWithRetryFrom_stop responses a (fun hc => ha hc.2)]
      simp
    · rw [fetchWithRetryFrom_stop responses a (fun hc => h1 hc.1)]
      simp
  | succ n ih =>
    intro a h
    by_cases h1 : (responses a).status = 429
    · by_cases h2 : a < 4
      · rw [fetchWithRetryFrom_retry responses a h1 h2]
        have := ih (a + 1) (by omega)
        simp only [List.length_cons]
        omega
      · rw [fetchWithRetryFrom_stop responses a (fun hc => h2 hc.2)]
        simp
    · rw [fetchWithRetryFrom_stop responses a (fun hc => h1 hc.1)]
      simp

-- ── Claims ───────────────────────────────────────────────────────────────────

/-- C7: `fetchChunk` attempts the log query at most 3 times, sleeping
`500 ms × (number of the attempt that just failed)` between attempts
(`[500, 1000]` when both retries happen); when all 3 attempts fail it logs a
warning and returns the empty list instead of propagating the error. -/
theorem fetchChunk_retry_spec {L : Type} (rpc : Nat → Option (List L)) :
    (fetchChunk rpc).attempts ≤ 3 ∧
    (fetchChunk rpc).delays =
      (List.range ((fetchChunk rpc).attempts - 1)).map (fun i => 500 * (i + 1)) ∧
    ((∀ i, i < 3 → rpc i = none) →
      fetchChunk rpc = ⟨[], [500, 1000], 3, true⟩) := by
  unfold fetchChunk
  rcases h0 : rpc 0 with _ | l0
  · rcases h1 : rpc 1 with _ | l1
    · rcases h2 : rpc 2 with _ | l2
      · rw [fetchChunkFrom_err_retry rpc 0 h0 (by omega),
            fetchChunkFrom_err_retry rpc 1 h1 (by omega),
            fetchChunkFrom_err_stop rpc 2 h2 (by omega)]
        refine ⟨by simp, by simp [List.range_succ], by intro _; simp⟩
      · rw [fetchChunkFrom_err_retry rpc 0 h0 (by omega),
            fetchChunkFrom_err_retry rpc 1 h1 (by omega),
            fetchChunkFrom_ok rpc 2 h2]
        refine ⟨by simp, by simp [List.range_succ], ?_⟩
        intro hall
        exact absurd h2 (by simp [hall 2 (by omega)])
    · rw [fetchChunkFrom_err_retry rpc 0 h0 (by omega),
          fetchChunkFrom_ok rpc 1 h1]
      refine ⟨by simp, by simp [List.range_succ], ?_⟩
      intro hall
      exact absurd h1 (by simp [hall 1 (by omega)])
  · rw [fetchChunkFrom_ok rpc 0 h0]
    refine ⟨by simp, by simp, ?_⟩
    intro hall
    exact absurd h0 (by simp [hall 0 (by omega)])

/-- C7 witness: with an oracle that always throws, `fetchChunk` makes exactly
3 attempts, sleeps 500 then 1000 ms, warns, and returns `[]`. -/
theorem fetchChunk_retry_spec_witness :
    fetchChunk (fun _ : Nat => (none : Option (List Nat))) =
      ⟨[], [500, 1000], 3, true⟩ :=
  (fetchChunk_retry_spec (fun _ => none)).2.2 (fun _ _ => rfl)

/-- C8: `scanRange` with `from > to` issues no query and returns `[]`;
with `from ≤ to` it queries exactly the chunks of `[from, to]` — consecutive
(no gap, no overlap), each spanning at most `CHUNK_SIZE = 50000` blocks, the
first starting at `from`, the last ending at `to` — and returns the in-order
concatenation of the chunk results. -/
theorem scanRange_chunking_spec {L : Type} (fetch : Nat → Nat → List L) (a b : Nat) :
    (b < a → scanRange fetch a b = [] ∧ scanRangeQueries a b = []) ∧
    (a ≤ b →
      scanRange fetch a b = ((chunkFrom a b).map (fun c => fetch c.1 c.2)).flatten ∧
      scanRangeQueries a b = chunkFrom a b ∧
      chunkFrom a b ≠ [] ∧
      (chunkFrom a b).head?.map Prod.fst = some a ∧
      (chunkFrom a b).getLast?.map Prod.snd = some b ∧
      List.Chain' (fun p q : Nat × Nat => q.1 = p.2 + 1) (chunkFrom a b) ∧
      (∀ c ∈ chunkFrom a b, c.1 ≤ c.2 ∧ c.2 + 1 ≤ c.1 + CHUNK_SIZE)) := by
  constructor
  · intro h
    constructor
    · unfold scanRange
      rw [if_pos (by omega)]
    · unfold scanRangeQueries
      rw [if_pos (by omega)]
  · intro h
    have hp := chunkFrom_props_main h
    refine ⟨?_, ?_, hp.1, hp.2.1, hp.2.2.1, hp.2.2.2.1, ?_⟩
    · unfold scanRange
      rw [if_neg (by omega)]
    · unfold scanRangeQueries
      rw [if_neg (by omega)]
    · intro c hc
      exact ⟨(hp.2.2.2.2 c hc).1, (hp.2.2.2.2 c hc).2.1⟩

/-- C8 witness: the `[0, 60000]` range is split into `[0, 49999]` and
`[50000, 60000]`, and `scanRange` concatenates the two chunk results. -/
theorem scanRange_chunking_spec_witness :
    (0 : Nat) ≤ 60000 ∧
    scanRange (fun _ _ => ([42] : List Nat)) 0 60000 =
        ((chunkFrom 0 60000).map (fun _ => [42])).flatten ∧
      scanRangeQueries 0 60000 = chunkFrom 0 60000 ∧
      chunkFrom 0 60000 ≠ [] ∧
      (chunkFrom 0 60000).head?.map Prod.fst = some 0 ∧
      (chunkFrom 0 60000).getLast?.map Prod.snd = some 60000 ∧
      List.Chain' (fun p q : Nat × Nat => q.1 = p.2 + 1) (chunkFrom 0 60000) ∧
      (∀ c ∈ chunkFrom 0 60000, c.1 ≤ c.2 ∧ c.2 + 1 ≤ c.1 + CHUNK_SIZE) :=
  ⟨by omega, (scanRange_chunking_spec (fun _ _ => ([42] : List Nat)) 0 60000).2 (by omega)⟩

/-- C9: `fetchWithRetry` retries at most 4 times after the first attempt; on
a 429 at attempt `a` it waits `Retry-After` seconds (2 s when the header is
absent or unparsable) scaled by `a + 1`; and a request that is rate-limited
once with `Retry-After: 2` and then succeeds is returned, not dropped, after
a single 2000 ms wait. -/
theorem fetchWithRetry_spec (responses : Nat → HttpResponse) :
    (fetchWithRetry responses).2.length ≤ 4 ∧
    (∀ a, a < 4 → (responses a).status = 429 →
      (fetchWithRetryFrom responses a).2.head? =
        some (jsOrTwo (parseIntJS (((responses a).retryAfterHeader).getD "2"))
          * 1000 * (a + 1))) ∧
    ((responses 0).status = 429 → (responses 0).retryAfterHeader = some "2" →
      ¬ (responses 1).status = 429 →
      fetchWithRetry responses = (responses 1, [2000])) := by
  refine ⟨?_, ?_, ?_⟩
  · have := fetchWithRetryFrom_len responses 4 0 (by omega)
    simpa [fetchWithRetry] using this
  · intro a ha h429
    rw [fetchWithRetryFrom_retry responses a h429 ha]
    rfl
  · intro h429 hheader hok
    unfold fetchWithRetry
    rw [fetchWithRetryFrom_retry responses 0 h429 (by omega),
        fetchWithRetryFrom_stop responses 1 (fun hc => hok hc.1), hheader]
    rfl

/-- C9 witness: one 429 with `Retry-After: 2`, then a 200 — the caller gets
the 200 response after a 2000 ms wait. -/
theorem fetchWithRetry_spec_witness :
    fetchWithRetry (fun n => if n = 0 then ⟨429, some "2"⟩ else ⟨200, none⟩) =
      (⟨200, none⟩, [2000]) :=
  (fetchWithRetry_spec (fun n => if n = 0 then ⟨429, some "2"⟩ else ⟨200, none⟩)).2.2
    (by decide) (by decide) (by decide)

/-- C5: when the existing blob is already at (or beyond) the chain head,
`runIncrementalScan` issues no log query, performs no enrichment, reports
`changed = false`, and returns the existing events blob unchanged except for
a refreshed `savedAt`. -/
theorem incremental_noop_spec (ch : Chain) (api : Nat → Option DetailFields)
    (stored : Option NormiesBlob) (now : Nat) (existing : EventsBlob)
    (h : ch.head ≤ existing.latestBlock) :
    (runIncrementalScan ch api stored now existing).changed = false ∧
    (runIncrementalScan ch api stored now existing).queried = [] ∧
    (runIncrementalScan ch api stored now existing).enriched = [] ∧
    (runIncrementalScan ch api stored now existing).eventsBlob =
      { existing with savedAt := now } := by
  unfold runIncrementalScan
  rw [if_pos (by omega)]
  exact ⟨rfl, rfl, rfl, rfl⟩

/-- C5 witness: head 100, blob at block 100 — nothing scanned, blob kept. -/
theorem incremental_noop_spec_witness :
    (runIncrementalScan ⟨[], [], 100⟩ (fun _ => none) none 7
        ⟨100, 3, [], [], none⟩).changed = false ∧
    (runIncrementalScan ⟨[], [], 100⟩ (fun _ => none) none 7
        ⟨100, 3, [], [], none⟩).queried = [] ∧
    (runIncrementalScan ⟨[], [], 100⟩ (fun _ => none) none 7
        ⟨100, 3, [], [], none⟩).enriched = [] ∧
    (runIncrementalScan ⟨[], [], 100⟩ (fun _ => none) none 7
        ⟨100, 3, [], [], none⟩).eventsBlob = ⟨100, 7, [], [], none⟩ :=
  incremental_noop_spec ⟨[], [], 100⟩ (fun _ => none) none 7
    ⟨100, 3, [], [], none⟩ (by decide)

unseal List.merge List.mergeSort in
/-- C2 counterexample: merging the same log twice is visibly different from
merging it once — the key's list gains a duplicate entry. -/
theorem mergeEditLogs_not_idempotent :
    ¬ ((mergeEditLogs (mergeEditLogs [] [⟨5, "tx", 42, 1, 2, "a"⟩]).1
          [⟨5, "tx", 42, 1, 2, "a"⟩]).1.get 42
        = (mergeEditLogs [] [⟨5, "tx", 42, 1, 2, "a"⟩]).1.get 42) := by
  decide

/-- C2 amended: `mergeEditLogs` does not de-duplicate — merging the same raw
log `e` a second time re-sorts the key's list with `toRawEdit e` appended
again, so the list's length (hence the derived `editCount`) grows by one.
De-duplication is instead achieved at the scanner level by never scanning
overlapping block ranges (`runIncrementalScan` resumes at
`latestBlock + 1`). -/
theorem mergeEditLogs_duplicate_appends (m : JMap (List RawEditEvent)) (e : EditLog) :
    (mergeEditLogs (mergeEditLogs m [e]).1 [e]).1.get e.tokenId
      = some (sortEdits
          ((((mergeEditLogs m [e]).1.get e.tokenId).getD []) ++ [toRawEdit e])) ∧
    (((mergeEditLogs (mergeEditLogs m [e]).1 [e]).1.get e.tokenId).getD []).length
      = (((mergeEditLogs m [e]).1.get e.tokenId).getD []).length + 1 := by
  have hany : ([e].any (fun l => l.tokenId = e.tokenId)) = true := by simp
  have hfil : ([e].filter (fun l => l.tokenId = e.tokenId)).map toRawEdit
      = [toRawEdit e] := by simp
  constructor
  · rw [mergeEditLogs_get, if_pos hany, hfil]
  · rw [mergeEditLogs_get, if_pos hany, hfil]
    simp only [Option.getD_some]
    rw [sortEdits, List.length_mergeSort, List.length_append]
    simp

/-- C3 counterexample: with every list in the (empty) burn map trivially
non-decreasing, merging two burn logs that arrive out of block order leaves
token 42's list decreasing — `mergeBurnLogs` never re-sorts. -/
theorem mergeBurnLogs_breaks_sort_invariant :
    (∀ p ∈ ([] : JMap (List RawBurnEvent)),
        (p.2).Pairwise (fun a b : RawBurnEvent => a.blockNumber ≤ b.blockNumber)) ∧
    ¬ (∀ p ∈ (mergeBurnLogs [] [⟨5, "t1", 42, 1, "o"⟩, ⟨3, "t2", 42, 1, "o"⟩]).1,
        (p.2).Pairwise (fun a b : RawBurnEvent => a.blockNumber ≤ b.blockNumber)) := by
  decide

/-- C3 amended: after `mergeEditLogs`, every key's list is non-decreasing in
block number provided it was before the merge (touched keys are re-sorted,
untouched keys are unchanged).  For `mergeBurnLogs`, which only appends, the
invariant is preserved only under the conditions the scanning pipeline
provides: the incoming burn logs are in non-decreasing block order and start
at or after the last block already recorded for their key. -/
theorem merge_sort_invariant (m : JMap (List RawEditEvent)) (logs : List EditLog)
    (bm : JMap (List RawBurnEvent)) (blogs : List BurnLog)
    (hm : ∀ k, ((m.get k).getD []).Pairwise
      (fun a b : RawEditEvent => a.blockNumber ≤ b.blockNumber))
    (hbm : ∀ k, ((bm.get k).getD []).Pairwise
      (fun a b : RawBurnEvent => a.blockNumber ≤ b.blockNumber))
    (hblogs : blogs.Pairwise (fun x y => x.blockNumber ≤ y.blockNumber))
    (hge : ∀ l ∈ blogs, ∀ x ∈ (bm.get l.receiverTokenId).getD [],
      x.blockNumber ≤ l.blockNumber) :
    (∀ k, (((mergeEditLogs m logs).1.get k).getD []).Pairwise
      (fun a b : RawEditEvent => a.blockNumber ≤ b.blockNumber)) ∧
    (∀ k, (((mergeBurnLogs bm blogs).1.get k).getD []).Pairwise
      (fun a b : RawBurnEvent => a.blockNumber ≤ b.blockNumber)) := by
  constructor
  · intro k
    rw [mergeEditLogs_get]
    by_cases h : logs.any (fun l => l.tokenId = k)
    · rw [if_pos h]
      simp only [Option.getD_some]
      exact (sortEdits_sorted _).imp (by
        intro a b hab
        simpa [editLe] using hab)
    · rw [if_neg h]
      exact hm k
  · intro k
    rw [mergeBurnLogs_get]
    by_cases h : blogs.any (fun l => l.receiverTokenId = k)
    · rw [if_pos h]
      simp only [Option.getD_some]
      rw [List.pairwise_append]
      refine ⟨hbm k, ?_, ?_⟩
      · rw [List.pairwise_map]
        exact ((hblogs.sublist (List.filter_sublist _)).imp (fun h => h))
      · intro x hx y hy
        rcases List.mem_map.mp hy with ⟨l, hl, rfl⟩
        have hlk : l.receiverTokenId = k := by
          have := List.of_mem_filter hl
          simpa using this
        have hlb : l ∈ blogs := List.mem_of_mem_filter hl
        have := hge l hlb x (by rw [hlk]; exact hx)
        simpa [toRawBurn] using this
    · rw [if_neg h]
      exact hbm k

/-- C3 amended, witness: empty maps, two ordered edit logs and two ordered
burn logs — all the resulting lists are non-decreasing. -/
theorem merge_sort_invariant_witness :
    (∀ k, (((mergeEditLogs [] [⟨3, "a", 7, 1, 1, "x"⟩, ⟨5, "b", 7, 1, 1, "x"⟩]).1.get k).getD
        []).Pairwise (fun a b : RawEditEvent => a.blockNumber ≤ b.blockNumber)) ∧
    (∀ k, (((mergeBurnLogs [] [⟨3, "a", 7, 1, "x"⟩, ⟨5, "b", 7, 1, "x"⟩]).1.get k).getD
        []).Pairwise (fun a b : RawBurnEvent => a.blockNumber ≤ b.blockNumber)) :=
  merge_sort_invariant [] [⟨3, "a", 7, 1, 1, "x"⟩, ⟨5, "b", 7, 1, 1, "x"⟩]
    [] [⟨3, "a", 7, 1, "x"⟩, ⟨5, "b", 7, 1, "x"⟩]
    (fun k => by simp [JMap.get])
    (fun k => by simp [JMap.get])
    (by decide)
    (fun l _ x hx => by simp [JMap.get] at hx)

/-- While a load is in flight (and the cache is absent or stale at every call
time), further `getCache` calls neither change the state nor start a load:
each returns the prior cache, or the in-flight promise when there is none. -/
theorem runGetCacheCalls_inflight (times : List Nat) (s : CoordState) (p : Nat)
    (hp : s.loadPromise = some p)
    (hstale : ∀ t ∈ times, ∀ m, s.mem = some m → ¬ (t - m.loadedAt < CACHE_TTL_MS)) :
    runGetCacheCalls times s =
      (times.map (fun _ => match s.mem with
        | some m => GetCacheReturn.value m
        | none => GetCacheReturn.promise p), s) := by
  induction times with
  | nil => simp [runGetCacheCalls]
  | cons t ts ih =>
    have hstep : getCacheStep t s =
        ((match s.mem with
          | some m => GetCacheReturn.value m
          | none => GetCacheReturn.promise p), s) := by
      unfold getCacheStep
      rcases hm : s.mem with _ | m
      · rw [hp]
      · have hfresh := hstale t (by simp) m hm
        simp [hp, hfresh]
    rw [runGetCacheCalls, hstep]
    rw [ih (fun u hu m hm => hstale u (by simp [hu]) m hm)]
    simp

/-- C4: N ≥ 1 concurrent `getCache()` calls arriving while no load is in
flight and the cache is absent or stale start exactly one load (one new
promise id is recorded), and every caller receives either the prior cached
state (stale-while-revalidate) or that one shared promise (cold start). -/
theorem getCache_single_flight (times : List Nat) (s : CoordState)
    (hne : times ≠ [])
    (hnoflight : s.loadPromise = none)
    (hstale : ∀ t ∈ times, ∀ m, s.mem = some m → ¬ (t - m.loadedAt < CACHE_TTL_MS)) :
    (runGetCacheCalls times s).2.startedLoads = s.startedLoads ++ [s.nextId] ∧
    (runGetCacheCalls times s).2.loadPromise = some s.nextId ∧
    ∀ r ∈ (runGetCacheCalls times s).1,
      r = (match s.mem with
        | some m => GetCacheReturn.value m
        | none => GetCacheReturn.promise s.nextId) := by
  rcases times with _ | ⟨t, ts⟩
  · exact absurd rfl hne
  · have hstep : getCacheStep t s =
        ((match s.mem with
          | some m => GetCacheReturn.value m
          | none => GetCacheReturn.promise s.nextId),
         { s with loadPromise := some s.nextId, nextId := s.nextId + 1,
                  startedLoads := s.startedLoads ++ [s.nextId] }) := by
      unfold getCacheStep
      rcases hm : s.mem with _ | m
      · rw [hnoflight]
      · have hfresh := hstale t (by simp) m hm
        simp [hnoflight, hfresh]
    have hrest := runGetCacheCalls_inflight ts
      { s with loadPromise := some s.nextId, nextId := s.nextId + 1,
               startedLoads := s.startedLoads ++ [s.nextId] }
      s.nextId rfl
      (fun u hu m hm => hstale u (by simp [hu]) m hm)
    rw [runGetCacheCalls, hstep, hrest]
    refine ⟨rfl, rfl, ?_⟩
    intro r hr
    rcases List.mem_cons.mp hr with hr | hr
    · exact hr
    · rcases List.mem_map.mp hr with ⟨u, _, hru⟩
      exact hru.symm

/-- C4 witness: three concurrent cold-start calls with an empty cache start
exactly one load, and all three callers hold the same promise. -/
theorem getCache_single_flight_witness :
    (runGetCacheCalls [100, 101, 102] ⟨none, none, 0, []⟩).2.startedLoads = [0] ∧
    (runGetCacheCalls [100, 101, 102] ⟨none, none, 0, []⟩).2.loadPromise = some 0 ∧
    ∀ r ∈ (runGetCacheCalls [100, 101, 102] ⟨none, none, 0, []⟩).1,
      r = GetCacheReturn.promise 0 :=
  getCache_single_flight [100, 101, 102] ⟨none, none, 0, []⟩
    (by decide) rfl (fun t _ m hm => by simp at hm)

-- ── Helper lemmas for the incremental scan ───────────────────────────────────

theorem jsSetList_aux (l acc : List Nat) (x : Nat) :
    x ∈ l.foldl (fun acc x => if x ∈ acc then acc else acc ++ [x]) acc ↔
      x ∈ acc ∨ x ∈ l := by
  induction l generalizing acc with
  | nil => simp
  | cons y t ih =>
    simp only [List.foldl_cons, List.mem_cons]
    by_cases hy : y ∈ acc
    · rw [if_pos hy, ih]
      constructor
      · rintro (h | h)
        · exact Or.inl h
        · exact Or.inr (Or.inr h)
      · rintro (h | h | h)
        · exact Or.inl h
        · exact Or.inl (h ▸ hy)
        · exact Or.inr h
    · rw [if_neg hy, ih]
      simp only [List.mem_append, List.mem_singleton]
      tauto

theorem mem_jsSetList (l : List Nat) (x : Nat) : x ∈ jsSetList l ↔ x ∈ l := by
  unfold jsSetList
  rw [jsSetList_aux]
  simp

theorem enrichAll_id_mem (api : Nat → Option DetailFields) (ids : List Nat)
    (countOf : Nat → Nat) (n : UpgradedNormie) (h : n ∈ enrichAll api ids countOf) :
    n.id ∈ ids := by
  rcases List.mem_filterMap.mp h with ⟨id, hid, hsome⟩
  unfold fetchNormieDetails at hsome
  rcases ha : api id with _ | d
  · rw [ha] at hsome
    exact absurd hsome (by simp)
  · rw [ha] at hsome
    have hn : (⟨id, d.level, d.ap, d.added, d.removed, d.type, countOf id⟩ :
        UpgradedNormie) = n := Option.some.inj (by simpa using hsome)
    rw [← hn]
    exact hid

theorem runIncrementalScan_eq_main (ch : Chain) (api : Nat → Option DetailFields)
    (stored : Option NormiesBlob) (now : Nat) (existing : EventsBlob)
    (h1b : ¬ existing.latestBlock + 1 > ch.head)
    (h2 : ¬ ((scanRange (editFetch ch) (existing.latestBlock + 1) ch.head).length = 0 ∧
             (scanRange (burnFetch ch) (existing.latestBlock + 1) ch.head).length = 0)) :
    runIncrementalScan ch api stored now existing =
      runIncrementalMain ch api stored now existing := by
  unfold runIncrementalScan
  rw [if_neg h1b, if_neg h2]

/-- C6: a key `k` that receives no new edit and no new burn event during an
incremental scan is never re-enriched (no detail-API call is issued for it),
its aggregate entries survive the scan unchanged (the multiset of entries
with id `k` is preserved), and every key that *is* enriched received at least
one new event. -/
theorem touched_set_minimality (ch : Chain) (api : Nat → Option DetailFields)
    (stored : Option NormiesBlob) (now : Nat) (existing : EventsBlob) (k : Nat)
    (hE : ∀ l ∈ scanRange (editFetch ch) (existing.latestBlock + 1) ch.head,
      ¬ l.tokenId = k)
    (hB : ∀ l ∈ scanRange (burnFetch ch) (existing.latestBlock + 1) ch.head,
      ¬ l.receiverTokenId = k) :
    (∀ n ∈ (stored.map (fun nb => nb.normies)).getD [], n.id = k →
      n ∈ (runIncrementalScan ch api stored now existing).normiesBlob.normies) ∧
    ¬ k ∈ (runIncrementalScan ch api stored now existing).enriched ∧
    ((runIncrementalScan ch api stored now existing).normiesBlob.normies.filter
        (fun n => n.id = k)).Perm
      (((stored.map (fun nb => nb.normies)).getD []).filter (fun n => n.id = k)) ∧
    (∀ i ∈ (runIncrementalScan ch api stored now existing).enriched,
      (∃ l ∈ scanRange (editFetch ch) (existing.latestBlock + 1) ch.head,
        l.tokenId = i) ∨
      (∃ l ∈ scanRange (burnFetch ch) (existing.latestBlock + 1) ch.head,
        l.receiverTokenId = i)) := by
  have hstored : (stored.getD ⟨[], now, ch.head⟩).normies
      = (stored.map (fun nb => nb.normies)).getD [] := by
    cases stored <;> rfl
  by_cases h1 : existing.latestBlock + 1 > ch.head
  · unfold runIncrementalScan
    rw [if_pos h1]
    refine ⟨?_, by simp, ?_, by simp⟩
    · intro n hn _
      simpa [hstored] using hn
    · simp only [hstored]
      exact List.Perm.refl _
  · by_cases h2 : (scanRange (editFetch ch) (existing.latestBlock + 1) ch.head).length = 0 ∧
        (scanRange (burnFetch ch) (existing.latestBlock + 1) ch.head).length = 0
    · unfold runIncrementalScan
      rw [if_neg h1, if_pos h2]
      refine ⟨?_, by simp, ?_, by simp⟩
      · intro n hn _
        simpa [hstored] using hn
      · simp only [hstored]
        exact List.Perm.refl _
    · rw [runIncrementalScan_eq_main ch api stored now existing h1 h2]
      unfold runIncrementalMain
      simp only
      have hkR : ¬ k ∈ jsSetList
          ((mergeEditLogs existing.editsByToken
              (scanRange (editFetch ch) (existing.latestBlock + 1) ch.head)).2 ++
           (mergeBurnLogs existing.burnsByToken
              (scanRange (burnFetch ch) (existing.latestBlock + 1) ch.head)).2) := by
        rw [mem_jsSetList, List.mem_append]
        rintro (h | h)
        · rcases List.mem_map.mp h with ⟨l, hl, hlk⟩
          exact hE l hl hlk
        · rcases List.mem_map.mp h with ⟨l, hl, hlk⟩
          exact hB l hl hlk
      refine ⟨?_, hkR, ?_, ?_⟩
      · intro n hn hid
        apply List.mem_mergeSort.mpr
        apply List.mem_append_left
        apply List.mem_filter.mpr
        refine ⟨hn, ?_⟩
        simp only [decide_eq_true_eq]
        rw [hid]
        exact hkR
      · have hperm := (List.mergeSort_perm
          ((((stored.map (fun nb => nb.normies)).getD []).filter (fun n =>
              ¬ n.id ∈ jsSetList
                ((mergeEditLogs existing.editsByToken
                    (scanRange (editFetch ch) (existing.latestBlock + 1) ch.head)).2 ++
                 (mergeBurnLogs existing.burnsByToken
                    (scanRange (burnFetch ch) (existing.latestBlock + 1) ch.head)).2))) ++
            enrichAll api
              (jsSetList
                ((mergeEditLogs existing.editsByToken
                    (scanRange (editFetch ch) (existing.latestBlock + 1) ch.head)).2 ++
                 (mergeBurnLogs existing.burnsByToken
                    (scanRange (burnFetch ch) (existing.latestBlock + 1) ch.head)).2))
              (fun id => (((mergeEditLogs existing.editsByToken
                  (scanRange (editFetch ch) (existing.latestBlock + 1) ch.head)).1.get
                    id).getD []).length)) normieLe).filter (fun n => decide (n.id = k))
        rw [sortNormies]
        refine hperm.trans ?_
        rw [List.filter_append]
        have hfetched : (enrichAll api
            (jsSetList
              ((mergeEditLogs existing.editsByToken
                  (scanRange (editFetch ch) (existing.latestBlock + 1) ch.head)).2 ++
               (mergeBurnLogs existing.burnsByToken
                  (scanRange (burnFetch ch) (existing.latestBlock + 1) ch.head)).2))
            (fun id => (((mergeEditLogs existing.editsByToken
                (scanRange (editFetch ch) (existing.latestBlock + 1) ch.head)).1.get
                  id).getD []).length)).filter (fun n => decide (n.id = k)) = [] := by
          rw [List.filter_eq_nil_iff]
          intro n hn
          simp only [decide_eq_true_eq]
          intro hid
          exact hkR (hid ▸ enrichAll_id_mem _ _ _ n hn)
        rw [hfetched, List.append_nil, List.filter_filter]
        have hcongr := List.filter_congr (l := (stored.map (fun nb => nb.normies)).getD [])
          (p := fun n : UpgradedNormie => decide (n.id = k) &&
            decide (¬ n.id ∈ jsSetList
              ((mergeEditLogs existing.editsByToken
                  (scanRange (editFetch ch) (existing.latestBlock + 1) ch.head)).2 ++
               (mergeBurnLogs existing.burnsByToken
                  (scanRange (burnFetch ch) (existing.latestBlock + 1) ch.head)).2)))
          (q := fun n : UpgradedNormie => decide (n.id = k)) ?_
        · rw [hcongr]
        · intro n _
          by_cases hid : n.id = k
          · simp only [hid, decide_eq_true_eq, decide_not]
            simp [hkR]
          · simp [hid]
      · intro i hi
        rw [mem_jsSetList, List.mem_append] at hi
        rcases hi with h | h
        · rcases List.mem_map.mp h with ⟨l, hl, hlk⟩
          exact Or.inl ⟨l, hl, hlk⟩
        · rcases List.mem_map.mp h with ⟨l, hl, hlk⟩
          exact Or.inr ⟨l, hl, hlk⟩

/-- Concrete chain for the C6 witness: one edit for token 7 at block 101. -/
def chainW6 : Chain := ⟨[⟨101, "t", 7, 1, 1, "x"⟩], [], 101⟩

/-- Stored aggregates for the C6 witness: one entry for token 9. -/
def storedW6 : Option NormiesBlob := some ⟨[⟨9, 1, 1, 0, 0, "Human", 1⟩], 5, 100⟩

/-- Existing events blob for the C6 witness: scanned up to block 100. -/
def existingW6 : EventsBlob := ⟨100, 5, [], [], none⟩

theorem chunkFrom_101 : chunkFrom 101 101 = [(101, 101)] := by
  rw [chunkFrom_of_le (by norm_num), chunkFrom_of_gt (by simp [CHUNK_SIZE])]
  norm_num

theorem scanRangeW6_edit :
    scanRange (editFetch chainW6) (existingW6.latestBlock + 1) chainW6.head
      = [⟨101, "t", 7, 1, 1, "x"⟩] := by
  show scanRange (editFetch chainW6) 101 101 = _
  rw [scanRange, if_neg (by norm_num), chunkFrom_101]
  rfl

theorem scanRangeW6_burn :
    scanRange (burnFetch chainW6) (existingW6.latestBlock + 1) chainW6.head = [] := by
  show scanRange (burnFetch chainW6) 101 101 = _
  rw [scanRange, if_neg (by norm_num), chunkFrom_101]
  rfl

/-- C6 witness: an incremental scan that finds one edit for token 7 leaves
token 9's stored aggregate untouched and never enriches token 9. -/
theorem touched_set_minimality_witness :
    (∀ n ∈ (storedW6.map (fun nb => nb.normies)).getD [], n.id = 9 →
      n ∈ (runIncrementalScan chainW6 (fun _ => none) storedW6 6
            existingW6).normiesBlob.normies) ∧
    ¬ (9 : Nat) ∈ (runIncrementalScan chainW6 (fun _ => none) storedW6 6
            existingW6).enriched ∧
    ((runIncrementalScan chainW6 (fun _ => none) storedW6 6
            existingW6).normiesBlob.normies.filter (fun n => n.id = 9)).Perm
      (((storedW6.map (fun nb => nb.normies)).getD []).filter (fun n => n.id = 9)) ∧
    (∀ i ∈ (runIncrementalScan chainW6 (fun _ => none) storedW6 6 existingW6).enriched,
      (∃ l ∈ scanRange (editFetch chainW6) (existingW6.latestBlock + 1) chainW6.head,
        l.tokenId = i) ∨
      (∃ l ∈ scanRange (burnFetch chainW6) (existingW6.latestBlock + 1) chainW6.head,
        l.receiverTokenId = i)) :=
  touched_set_minimality chainW6 (fun _ => none) storedW6 6 existingW6 9
    (by rw [scanRangeW6_edit]; decide)
    (by rw [scanRangeW6_burn]; decide)

-- ── Helper lemmas for `getThe100` ────────────────────────────────────────────

theorem pioneerLe_trans (a b c : PioneerRec) :
    pioneerLe a b → pioneerLe b c → pioneerLe a c := by
  simp only [pioneerLe, decide_eq_true_eq]
  omega

theorem pioneerLe_total (a b : PioneerRec) : pioneerLe a b || pioneerLe b a := by
  simp only [pioneerLe]
  rcases Nat.le_total a.blockNumber b.blockNumber with h | h <;> simp [h]

theorem collectPioneers_mem (cache : MemCache) :
    ∀ p ∈ collectPioneers cache, ∃ evs, (p.tokenId, evs) ∈ cache.editsByToken ∧
      ∃ first rest, evs = first :: rest ∧ p.blockNumber = first.blockNumber := by
  unfold collectPioneers
  suffices h : ∀ (entries : JMap (List RawEditEvent)) (acc : List PioneerRec),
      ∀ p ∈ entries.foldl (fun acc p =>
        match p.2 with
        | [] => acc
        | first :: _ =>
          acc ++ [{ tokenId := p.1, blockNumber := first.blockNumber,
                    txHash := first.txHash, changeCount := first.changeCount,
                    type := ((cache.normies.find? (fun n => n.id = p.1)).map
                              (fun n => n.type)).getD "Human" }]) acc,
      p ∈ acc ∨ ∃ evs, (p.tokenId, evs) ∈ entries ∧
        ∃ first rest, evs = first :: rest ∧ p.blockNumber = first.blockNumber by
    intro p hp
    rcases h cache.editsByToken [] p hp with h | h
    · simp at h
    · exact h
  intro entries
  induction entries with
  | nil =>
    intro acc p hp
    exact Or.inl hp
  | cons e t ih =>
    intro acc p hp
    simp only [List.foldl_cons] at hp
    rcases he : e.2 with _ | ⟨first, rest⟩
    · rw [he] at hp
      rcases ih acc p hp with h | ⟨evs, hm, first, rest, hcons, hbn⟩
      · exact Or.inl h
      · exact Or.inr ⟨evs, List.mem_cons_of_mem e hm, first, rest, hcons, hbn⟩
    · rw [he] at hp
      rcases ih _ p hp with h | ⟨evs, hm, f2, r2, hcons, hbn⟩
      · rcases List.mem_append.mp h with h | h
        · exact Or.inl h
        · rcases List.mem_singleton.mp h with rfl
          refine Or.inr ⟨e.2, ?_, first, rest, he, rfl⟩
          have : e = (e.1, e.2) := rfl
          rw [← this]
          exact List.mem_cons_self e t
      · exact Or.inr ⟨evs, List.mem_cons_of_mem e hm, f2, r2, hcons, hbn⟩

/-- C10: `getThe100` returns at most 100 entries, each drawn from a token
whose edit list is non-empty, with the entry's block number equal to the
token's first (and, when the map's lists are sorted, earliest) edit; the
entries are in ascending block-number order, and each entry's rank is its
1-based position in the returned list. -/
theorem getThe100_spec (cache : MemCache)
    (hs : ∀ p ∈ cache.editsByToken, (p.2).Pairwise
      (fun a b : RawEditEvent => a.blockNumber ≤ b.blockNumber)) :
    (getThe100Entries cache).length ≤ 100 ∧
    (∀ e ∈ getThe100Entries cache, ∃ evs, (e.tokenId, evs) ∈ cache.editsByToken ∧
      evs ≠ [] ∧ (∃ first, evs.head? = some first ∧ e.blockNumber = first.blockNumber) ∧
      ∀ x ∈ evs, e.blockNumber ≤ x.blockNumber) ∧
    (getThe100Entries cache).Pairwise (fun a b => a.blockNumber ≤ b.blockNumber) ∧
    (∀ i, (h : i < (getThe100Entries cache).length) →
      ((getThe100Entries cache)[i]).rank = i + 1) := by
  refine ⟨?_, ?_, ?_, ?_⟩
  · unfold getThe100Entries
    simp only [List.length_map, List.enum_length]
    rw [List.length_take]
    exact Nat.min_le_left _ _
  · intro e he
    unfold getThe100Entries at he
    rcases List.mem_map.mp he with ⟨ip, hip, rfl⟩
    have hp : ip.2 ∈ ((collectPioneers cache).mergeSort pioneerLe).take 100 := by
      have := List.enumFrom_map_snd 0 (((collectPioneers cache).mergeSort pioneerLe).take 100)
      rw [← this]
      exact List.mem_map_of_mem Prod.snd hip
    have hp2 : ip.2 ∈ collectPioneers cache :=
      List.mem_mergeSort.mp (List.mem_of_mem_take hp)
    rcases collectPioneers_mem cache ip.2 hp2 with ⟨evs, hm, first, rest, hcons, hbn⟩
    refine ⟨evs, hm, by simp [hcons], ⟨first, by simp [hcons], hbn⟩, ?_⟩
    intro x hx
    have hsorted := hs (ip.2.tokenId, evs) hm
    rw [hcons] at hsorted hx
    rcases List.mem_cons.mp hx with rfl | hx
    · simp [hbn]
    · have := (List.pairwise_cons.mp hsorted).1 x hx
      simp only [hbn]
      omega
  · unfold getThe100Entries
    have h1 : (((collectPioneers cache).mergeSort pioneerLe).take 100).Pairwise
        (fun a b : PioneerRec => a.blockNumber ≤ b.blockNumber) := by
      refine List.Pairwise.take ?_
      exact (List.sorted_mergeSort pioneerLe_trans pioneerLe_total
        (collectPioneers cache)).imp (by
          intro a b hab
          simpa [pioneerLe] using hab)
    have h2 : ((((collectPioneers cache).mergeSort pioneerLe).take 100).enum).Pairwise
        (fun x y : Nat × PioneerRec => x.2.blockNumber ≤ y.2.blockNumber) := by
      have := List.enumFrom_map_snd 0 (((collectPioneers cache).mergeSort pioneerLe).take 100)
      rw [← this] at h1
      exact (List.pairwise_map (R := fun a b : PioneerRec => a.blockNumber ≤ b.blockNumber)
        (f := Prod.snd)).mp h1
    exact List.pairwise_map.mpr (h2.imp (fun h => h))
  · intro i h
    unfold getThe100Entries at h ⊢
    have hi : i < ((((collectPioneers cache).mergeSort pioneerLe).take 100).enum).length := by
      simpa using h
    rw [List.getElem_map]
    have := List.getElem_enum (((collectPioneers cache).mergeSort pioneerLe).take 100) i
      (h := hi)
    rw [this]

/-- Concrete cache for the C10 witness. -/
def cacheW10 : MemCache :=
  ⟨[(7, [⟨10, "t7", 1, 9, "x"⟩]), (3, [⟨4, "t3", 2, 9, "x"⟩]), (9, [])],
   [], [], 0, 0, []⟩

/-- C10 witness: on a concrete cache the returned entries are bounded,
sourced from non-empty lists, block-sorted and consecutively ranked. -/
theorem getThe100_spec_witness :
    (∀ p ∈ cacheW10.editsByToken, (p.2).Pairwise
      (fun a b : RawEditEvent => a.blockNumber ≤ b.blockNumber)) ∧
    ((getThe100Entries cacheW10).length ≤ 100 ∧
    (∀ e ∈ getThe100Entries cacheW10, ∃ evs, (e.tokenId, evs) ∈ cacheW10.editsByToken ∧
      evs ≠ [] ∧ (∃ first, evs.head? = some first ∧ e.blockNumber = first.blockNumber) ∧
      ∀ x ∈ evs, e.blockNumber ≤ x.blockNumber) ∧
    (getThe100Entries cacheW10).Pairwise (fun a b => a.blockNumber ≤ b.blockNumber) ∧
    (∀ i, (h : i < (getThe100Entries cacheW10).length) →
      ((getThe100Entries cacheW10)[i]).rank = i + 1)) :=
  ⟨by decide, getThe100_spec cacheW10 (by decide)⟩

-- ── Helper lemmas for incremental ≡ full ─────────────────────────────────────

theorem runFullScan_latestBlock (ch : Chain) (api : Nat → Option DetailFields)
    (now : Nat) : (runFullScan ch api now).1.latestBlock = ch.head := rfl

theorem runFullScan_editsByToken (ch : Chain) (api : Nat → Option DetailFields)
    (now : Nat) : (runFullScan ch api now).1.editsByToken
      = (mergeEditLogs [] (scanRange (editFetch ch) CANVAS_DEPLOY_BLOCK ch.head)).1 := rfl

theorem runFullScan_burnsByToken (ch : Chain) (api : Nat → Option DetailFields)
    (now : Nat) : (runFullScan ch api now).1.burnsByToken
      = (mergeBurnLogs [] (scanRange (burnFetch ch) CANVAS_DEPLOY_BLOCK ch.head)).1 := rfl

theorem runIncrementalScan_zero (ch : Chain) (api : Nat → Option DetailFields)
    (stored : Option NormiesBlob) (now : Nat) (existing : EventsBlob)
    (h1 : ¬ existing.latestBlock + 1 > ch.head)
    (h2 : (scanRange (editFetch ch) (existing.latestBlock + 1) ch.head).length = 0 ∧
          (scanRange (burnFetch ch) (existing.latestBlock + 1) ch.head).length = 0) :
    runIncrementalScan ch api stored now existing =
      { eventsBlob  := { existing with latestBlock := ch.head, savedAt := now }
        normiesBlob := stored.getD ⟨[], now, ch.head⟩
        changed     := false
        queried     := scanRangeQueries (existing.latestBlock + 1) ch.head ++
                       scanRangeQueries (existing.latestBlock + 1) ch.head
        enriched    := [] } := by
  unfold runIncrementalScan
  rw [if_neg h1, if_pos h2]

theorem runIncrementalMain_editsByToken (ch : Chain) (api : Nat → Option DetailFields)
    (stored : Option NormiesBlob) (now : Nat) (existing : EventsBlob) :
    (runIncrementalMain ch api stored now existing).eventsBlob.editsByToken =
      (mergeEditLogs existing.editsByToken
        (scanRange (editFetch ch) (existing.latestBlock + 1) ch.head)).1 := rfl

theorem runIncrementalMain_burnsByToken (ch : Chain) (api : Nat → Option DetailFields)
    (stored : Option NormiesBlob) (now : Nat) (existing : EventsBlob) :
    (runIncrementalMain ch api stored now existing).eventsBlob.burnsByToken =
      (mergeBurnLogs existing.burnsByToken
        (scanRange (burnFetch ch) (existing.latestBlock + 1) ch.head)).1 := rfl

theorem scanRange_editFetch (ch : Chain)
    (hs : ch.editStream.Pairwise (fun x y => x.blockNumber ≤ y.blockNumber)) (a b : Nat) :
    scanRange (editFetch ch) a b
      = ch.editStream.filter (inRange (fun l => l.blockNumber) a b) :=
  scanRange_filter (fun l : EditLog => l.blockNumber) hs a b

theorem scanRange_burnFetch (ch : Chain)
    (hs : ch.burnStream.Pairwise (fun x y => x.blockNumber ≤ y.blockNumber)) (a b : Nat) :
    scanRange (burnFetch ch) a b
      = ch.burnStream.filter (inRange (fun l => l.blockNumber) a b) :=
  scanRange_filter (fun l : BurnLog => l.blockNumber) hs a b

theorem filter_eq_nil_of_not_any {α : Type} (l : List α) (p : α → Bool)
    (h : ¬ l.any p) : l.filter p = [] := by
  rw [List.filter_eq_nil_iff]
  intro a ha hpa
  exact h (List.any_eq_true.mpr ⟨a, ha, hpa⟩)

theorem sortEdits_of_le_sorted {l : List RawEditEvent}
    (h : l.Pairwise (fun a b => a.blockNumber ≤ b.blockNumber)) : sortEdits l = l :=
  sortEdits_of_sorted (h.imp (by
    intro a b hab
    simpa [editLe] using hab))

/-- Merging `logs1` into an empty map and then `logs2` into the result gives,
key by key, the same map as merging `logs1 ++ logs2` at once — provided
`logs1` arrives in non-decreasing block order. -/
theorem mergeEditLogs_two_stage (logs1 logs2 : List EditLog) (k : Nat)
    (h1 : logs1.Pairwise (fun x y => x.blockNumber ≤ y.blockNumber)) :
    (mergeEditLogs (mergeEditLogs [] logs1).1 logs2).1.get k
      = (mergeEditLogs [] (logs1 ++ logs2)).1.get k := by
  have hf1 : ((logs1.filter (fun l => l.tokenId = k)).map toRawEdit).Pairwise
      (fun a b : RawEditEvent => a.blockNumber ≤ b.blockNumber) := by
    rw [List.pairwise_map]
    exact (h1.sublist (List.filter_sublist _)).imp (fun h => h)
  rw [mergeEditLogs_get, mergeEditLogs_get, mergeEditLogs_get]
  have hgetnil : JMap.get ([] : JMap (List RawEditEvent)) k = none := rfl
  rw [hgetnil]
  have hfapp : ((logs1 ++ logs2).filter (fun l => l.tokenId = k)).map toRawEdit
      = (logs1.filter (fun l => l.tokenId = k)).map toRawEdit
        ++ (logs2.filter (fun l => l.tokenId = k)).map toRawEdit := by
    rw [List.filter_append, List.map_append]
  have hany : ((logs1 ++ logs2).any (fun l => l.tokenId = k))
      = (logs1.any (fun l => l.tokenId = k) || logs2.any (fun l => l.tokenId = k)) := by
    rw [List.any_append]
  by_cases h2a : logs2.any (fun l => l.tokenId = k)
  · rw [if_pos h2a]
    by_cases h1a : logs1.any (fun l => l.tokenId = k)
    · rw [if_pos h1a, if_pos (by rw [hany, h1a]; rfl), hfapp]
      simp only [Option.getD_none, Option.getD_some, List.nil_append]
      rw [sortEdits_of_le_sorted hf1]
    · rw [if_neg h1a, if_pos (by rw [hany, h2a]; simp), hfapp]
      rw [filter_eq_nil_of_not_any logs1 _ h1a]
      simp
  · rw [if_neg h2a]
    rw [filter_eq_nil_of_not_any logs2 _ h2a] at hfapp
    by_cases h1a : logs1.any (fun l => l.tokenId = k)
    · rw [if_pos h1a, if_pos (by rw [hany, h1a]; rfl), hfapp]
      simp
    · rw [if_neg h1a, if_neg (by rw [hany]; simp [h1a, h2a])]

/-- The burn-side analogue of the two-stage merge identity; `mergeBurnLogs`
never sorts, so no ordering hypothesis is needed. -/
theorem mergeBurnLogs_two_stage (logs1 logs2 : List BurnLog) (k : Nat) :
    (mergeBurnLogs (mergeBurnLogs [] logs1).1 logs2).1.get k
      = (mergeBurnLogs [] (logs1 ++ logs2)).1.get k := by
  rw [mergeBurnLogs_get, mergeBurnLogs_get, mergeBurnLogs_get]
  have hgetnil : JMap.get ([] : JMap (List RawBurnEvent)) k = none := rfl
  rw [hgetnil]
  have hfapp : ((logs1 ++ logs2).filter (fun l => l.receiverTokenId = k)).map toRawBurn
      = (logs1.filter (fun l => l.receiverTokenId = k)).map toRawBurn
        ++ (logs2.filter (fun l => l.receiverTokenId = k)).map toRawBurn := by
    rw [List.filter_append, List.map_append]
  have hany : ((logs1 ++ logs2).any (fun l => l.receiverTokenId = k))
      = (logs1.any (fun l => l.receiverTokenId = k)
          || logs2.any (fun l => l.receiverTokenId = k)) := by
    rw [List.any_append]
  by_cases h2a : logs2.any (fun l => l.receiverTokenId = k)
  · rw [if_pos h2a]
    by_cases h1a : logs1.any (fun l => l.receiverTokenId = k)
    · rw [if_pos h1a, if_pos (by rw [hany, h1a]; rfl), hfapp]
      simp
    · rw [if_neg h1a, if_pos (by rw [hany, h2a]; simp), hfapp]
      rw [filter_eq_nil_of_not_any logs1 _ h1a]
      simp
  · rw [if_neg h2a]
    rw [filter_eq_nil_of_not_any logs2 _ h2a] at hfapp
    by_cases h1a : logs1.any (fun l => l.receiverTokenId = k)
    · rw [if_pos h1a, if_pos (by rw [hany, h1a]; rfl), hfapp]
      simp
    · rw [if_neg h1a, if_neg (by rw [hany]; simp [h1a, h2a])]

/-- C1: with every chunk fetch returning exactly the chain's events in its
range (and the chain streams in block order), a full scan up to head `B`
yields, key by key, the same per-key edit map and per-key burn map as a full
scan up to head `M` followed by an incremental scan (which resumes at
`M + 1`) up to head `B`, for any `CANVAS_DEPLOY_BLOCK ≤ M < B`. -/
theorem incremental_equals_full (edits : List EditLog) (burns : List BurnLog)
    (M B : Nat) (api1 api2 api3 : Nat → Option DetailFields)
    (stored : Option NormiesBlob) (now1 now2 now3 : Nat)
    (hse : edits.Pairwise (fun x y => x.blockNumber ≤ y.blockNumber))
    (hsb : burns.Pairwise (fun x y => x.blockNumber ≤ y.blockNumber))
    (hAM : CANVAS_DEPLOY_BLOCK ≤ M) (hMB : M < B) :
    ∀ k,
      (runFullScan ⟨edits, burns, B⟩ api1 now1).1.editsByToken.get k
        = (runIncrementalScan ⟨edits, burns, B⟩ api2 stored now2
            (runFullScan ⟨edits, burns, M⟩ api3 now3).1).eventsBlob.editsByToken.get k ∧
      (runFullScan ⟨edits, burns, B⟩ api1 now1).1.burnsByToken.get k
        = (runIncrementalScan ⟨edits, burns, B⟩ api2 stored now2
            (runFullScan ⟨edits, burns, M⟩ api3 now3).1).eventsBlob.burnsByToken.get k := by
  intro k
  have hsE : ∀ a b, scanRange (editFetch (⟨edits, burns, B⟩ : Chain)) a b
      = edits.filter (inRange (fun l => l.blockNumber) a b) := fun a b =>
    scanRange_editFetch ⟨edits, burns, B⟩ hse a b
  have hsEM : ∀ a b, scanRange (editFetch (⟨edits, burns, M⟩ : Chain)) a b
      = edits.filter (inRange (fun l => l.blockNumber) a b) := fun a b =>
    scanRange_editFetch ⟨edits, burns, M⟩ hse a b
  have hsB : ∀ a b, scanRange (burnFetch (⟨edits, burns, B⟩ : Chain)) a b
      = burns.filter (inRange (fun l => l.blockNumber) a b) := fun a b =>
    scanRange_burnFetch ⟨edits, burns, B⟩ hsb a b
  have hsBM : ∀ a b, scanRange (burnFetch (⟨edits, burns, M⟩ : Chain)) a b
      = burns.filter (inRange (fun l => l.blockNumber) a b) := fun a b =>
    scanRange_burnFetch ⟨edits, burns, M⟩ hsb a b
  have hsplitE : edits.filter (inRange (fun l => l.blockNumber) CANVAS_DEPLOY_BLOCK B)
      = edits.filter (inRange (fun l => l.blockNumber) CANVAS_DEPLOY_BLOCK M)
        ++ edits.filter (inRange (fun l => l.blockNumber) (M + 1) B) :=
    filter_inRange_split (fun l : EditLog => l.blockNumber) hse CANVAS_DEPLOY_BLOCK M B
      (by omega) (by omega)
  have hsplitB : burns.filter (inRange (fun l => l.blockNumber) CANVAS_DEPLOY_BLOCK B)
      = burns.filter (inRange (fun l => l.blockNumber) CANVAS_DEPLOY_BLOCK M)
        ++ burns.filter (inRange (fun l => l.blockNumber) (M + 1) B) :=
    filter_inRange_split (fun l : BurnLog => l.blockNumber) hsb CANVAS_DEPLOY_BLOCK M B
      (by omega) (by omega)
  have hfullB_E : (runFullScan ⟨edits, burns, B⟩ api1 now1).1.editsByToken
      = (mergeEditLogs []
          (edits.filter (inRange (fun l => l.blockNumber) CANVAS_DEPLOY_BLOCK B))).1 := by
    rw [runFullScan_editsByToken]
    rw [show (⟨edits, burns, B⟩ : Chain).head = B from rfl, hsE]
  have hfullM_E : (runFullScan ⟨edits, burns, M⟩ api3 now3).1.editsByToken
      = (mergeEditLogs []
          (edits.filter (inRange (fun l => l.blockNumber) CANVAS_DEPLOY_BLOCK M))).1 := by
    rw [runFullScan_editsByToken]
    rw [show (⟨edits, burns, M⟩ : Chain).head = M from rfl, hsEM]
  have hfullB_B : (runFullScan ⟨edits, burns, B⟩ api1 now1).1.burnsByToken
      = (mergeBurnLogs []
          (burns.filter (inRange (fun l => l.blockNumber) CANVAS_DEPLOY_BLOCK B))).1 := by
    rw [runFullScan_burnsByToken]
    rw [show (⟨edits, burns, B⟩ : Chain).head = B from rfl, hsB]
  have hfullM_B : (runFullScan ⟨edits, burns, M⟩ api3 now3).1.burnsByToken
      = (mergeBurnLogs []
          (burns.filter (inRange (fun l => l.blockNumber) CANVAS_DEPLOY_BLOCK M))).1 := by
    rw [runFullScan_burnsByToken]
    rw [show (⟨edits, burns, M⟩ : Chain).head = M from rfl, hsBM]
  have hEMsorted : (edits.filter
      (inRange (fun l : EditLog => l.blockNumber) CANVAS_DEPLOY_BLOCK M)).Pairwise
        (fun x y => x.blockNumber ≤ y.blockNumber) :=
    hse.sublist (List.filter_sublist _)
  have h1 : ¬ (runFullScan ⟨edits, burns, M⟩ api3 now3).1.latestBlock + 1
      > (⟨edits, burns, B⟩ : Chain).head := by
    rw [runFullScan_latestBlock]
    show ¬ M + 1 > B
    omega
  by_cases h2 :
      (scanRange (editFetch (⟨edits, burns, B⟩ : Chain))
        ((runFullScan ⟨edits, burns, M⟩ api3 now3).1.latestBlock + 1)
        (⟨edits, burns, B⟩ : Chain).head).length = 0 ∧
      (scanRange (burnFetch (⟨edits, burns, B⟩ : Chain))
        ((runFullScan ⟨edits, burns, M⟩ api3 now3).1.latestBlock + 1)
        (⟨edits, burns, B⟩ : Chain).head).length = 0
  case pos =>
    have hE2nil : edits.filter (inRange (fun l => l.blockNumber) (M + 1) B) = [] := by
      have h := h2.1
      rw [runFullScan_latestBlock] at h
      rw [show (⟨edits, burns, M⟩ : Chain).head = M from rfl] at h
      rw [show (⟨edits, burns, B⟩ : Chain).head = B from rfl] at h
      rw [hsE] at h
      exact List.eq_nil_of_length_eq_zero h
    have hB2nil : burns.filter (inRange (fun l => l.blockNumber) (M + 1) B) = [] := by
      have h := h2.2
      rw [runFullScan_latestBlock] at h
      rw [show (⟨edits, burns, M⟩ : Chain).head = M from rfl] at h
      rw [show (⟨edits, burns, B⟩ : Chain).head = B from rfl] at h
      rw [hsB] at h
      exact List.eq_nil_of_length_eq_zero h
    rw [runIncrementalScan_zero _ _ _ _ _ h1 h2]
    constructor
    · show (runFullScan ⟨edits, burns, B⟩ api1 now1).1.editsByToken.get k
        = (runFullScan ⟨edits, burns, M⟩ api3 now3).1.editsByToken.get k
      rw [hfullB_E, hfullM_E, hsplitE, hE2nil, List.append_nil]
    · show (runFullScan ⟨edits, burns, B⟩ api1 now1).1.burnsByToken.get k
        = (runFullScan ⟨edits, burns, M⟩ api3 now3).1.burnsByToken.get k
      rw [hfullB_B, hfullM_B, hsplitB, hB2nil, List.append_nil]
  case neg =>
    rw [runIncrementalScan_eq_main _ _ _ _ _ h1 h2]
    constructor
    · rw [runIncrementalMain_editsByToken, hfullB_E, runFullScan_latestBlock]
      rw [show (⟨edits, burns, M⟩ : Chain).head = M from rfl]
      rw [show (⟨edits, burns, B⟩ : Chain).head = B from rfl]
      rw [hsE, hfullM_E, hsplitE]
      exact (mergeEditLogs_two_stage _ _ k hEMsorted).symm
    · rw [runIncrementalMain_burnsByToken, hfullB_B, runFullScan_latestBlock]
      rw [show (⟨edits, burns, M⟩ : Chain).head = M from rfl]
      rw [show (⟨edits, burns, B⟩ : Chain).head = B from rfl]
      rw [hsB, hfullM_B, hsplitB]
      exact (mergeBurnLogs_two_stage _ _ k).symm

/-- C1 witness: one edit at block 19614532 for token 5, split point
`M = CANVAS_DEPLOY_BLOCK`, head `B = M + 1` — token 5's final lists agree
between the one-pass and the two-stage scan. -/
theorem incremental_equals_full_witness :
    (runFullScan ⟨[⟨19614532, "e1", 5, 1, 1, "x"⟩], [⟨19614532, "b1", 5, 1, "x"⟩],
        19614532⟩ (fun _ => none) 1).1.editsByToken.get 5
      = (runIncrementalScan ⟨[⟨19614532, "e1", 5, 1, 1, "x"⟩],
            [⟨19614532, "b1", 5, 1, "x"⟩], 19614532⟩ (fun _ => none) none 2
          (runFullScan ⟨[⟨19614532, "e1", 5, 1, 1, "x"⟩],
              [⟨19614532, "b1", 5, 1, "x"⟩], 19614531⟩ (fun _ => none)
            3).1).eventsBlob.editsByToken.get 5 ∧
    (runFullScan ⟨[⟨19614532, "e1", 5, 1, 1, "x"⟩], [⟨19614532, "b1", 5, 1, "x"⟩],
        19614532⟩ (fun _ => none) 1).1.burnsByToken.get 5
      = (runIncrementalScan ⟨[⟨19614532, "e1", 5, 1, 1, "x"⟩],
            [⟨19614532, "b1", 5, 1, "x"⟩], 19614532⟩ (fun _ => none) none 2
          (runFullScan ⟨[⟨19614532, "e1", 5, 1, 1, "x"⟩],
              [⟨19614532, "b1", 5, 1, "x"⟩], 19614531⟩ (fun _ => none)
            3).1).eventsBlob.burnsByToken.get 5 :=
  incremental_equals_full [⟨19614532, "e1", 5, 1, 1, "x"⟩]
    [⟨19614532, "b1", 5, 1, "x"⟩] 19614531 19614532
    (fun _ => none) (fun _ => none) (fun _ => none) none 1 2 3
    (by decide) (by decide) (by decide) (by decide) 5

end NormiesArchive
